import Mathlib

/-!
# Verification of the libmpi multi-precision integer library

Shallow embedding of the `mpi` multi-precision integer library
(interface `src/mpi.h`).  The repository ships only the interface
header; the implementation file is absent, so every operation below is
modelled from the specification's description of its behaviour, while
the error-code constants, the limb ceiling and the data layout are
taken directly from the header.
-/

namespace Libmpi

/-- Error code from `mpi.h`: file I/O error (`-0x0002`). -/
def ERR_MPI_FILE_IO_ERROR : Int := -0x0002

/-- Error code from `mpi.h`: bad input parameters to function (`-0x0004`). -/
def ERR_MPI_BAD_INPUT_DATA : Int := -0x0004

/-- Error code from `mpi.h`: invalid character in the digit string (`-0x0006`). -/
def ERR_MPI_INVALID_CHARACTER : Int := -0x0006

/-- Error code from `mpi.h`: the output buffer is too small (`-0x0008`). -/
def ERR_MPI_BUFFER_TOO_SMALL : Int := -0x0008

/-- Error code from `mpi.h`: negative arguments / illegal negative result (`-0x000A`). -/
def ERR_MPI_NEGATIVE_VALUE : Int := -0x000A

/-- Error code from `mpi.h`: division by zero (`-0x000C`). -/
def ERR_MPI_DIVISION_BY_ZERO : Int := -0x000C

/-- Error code from `mpi.h`: arguments not acceptable (`-0x000E`). -/
def ERR_MPI_NOT_ACCEPTABLE : Int := -0x000E

/-- The seven categorical error codes of `mpi.h`, in header order. -/
def errCodes : List Int :=
  [ERR_MPI_FILE_IO_ERROR, ERR_MPI_BAD_INPUT_DATA, ERR_MPI_INVALID_CHARACTER,
   ERR_MPI_BUFFER_TOO_SMALL, ERR_MPI_NEGATIVE_VALUE, ERR_MPI_DIVISION_BY_ZERO,
   ERR_MPI_NOT_ACCEPTABLE]

/-- `MPI_MAX_LIMBS` from `mpi.h`: the hard ceiling on the limb count. -/
def MPI_MAX_LIMBS : Nat := 10000

/-- Limbs are `t_uint = uint32_t`, so the positional base is `2^32`. -/
def limbBase : Nat := 2 ^ 32

/-- The `mpi` struct of `mpi.h`: sign `s`, and the limb buffer `p`
(least-significant limb first).  The limb count field `n` is the length
of `p`. -/
structure mpi where
  s : Int
  p : List Nat
deriving DecidableEq

/-- Value of a limb sequence, least-significant limb first, base `2^32`. -/
def limbsVal : List Nat → Nat
  | [] => 0
  | l :: ls => l + limbBase * limbsVal ls

/-- Magnitude encoded by an mpi's limb buffer. -/
def mpi.mag (X : mpi) : Nat := limbsVal X.p

/-- Signed value represented by an mpi: `s * Σ p[i] * base^i`. -/
def mpi.val (X : mpi) : Int := X.s * X.mag

/-- Decompose a natural number into base-`2^32` limbs; the first argument
is recursion fuel (any bound on the number). -/
def natToLimbsAux : Nat → Nat → List Nat
  | 0, _ => []
  | fuel + 1, m => if m = 0 then [] else m % limbBase :: natToLimbsAux fuel (m / limbBase)

/-- Base-`2^32` limb decomposition of a natural number (empty for zero). -/
def natToLimbs (m : Nat) : List Nat := natToLimbsAux m m

/-- The mpi representing a non-negative value `m`. -/
def mpiOfNat (m : Nat) : mpi := ⟨1, natToLimbs m⟩

/-- The mpi representing an arbitrary signed value `z`, in sign-magnitude
form. -/
def mpiOfInt (z : Int) : mpi := ⟨if z < 0 then -1 else 1, natToLimbs z.natAbs⟩

theorem limbsVal_natToLimbsAux (fuel : Nat) :
    ∀ m : Nat, m ≤ fuel → limbsVal (natToLimbsAux fuel m) = m := by
  induction fuel with
  | zero =>
    intro m hm
    interval_cases m
    simp [natToLimbsAux, limbsVal]
  | succ fuel ih =>
    intro m hm
    by_cases h0 : m = 0
    · simp [natToLimbsAux, h0, limbsVal]
    · have hdiv : m / limbBase ≤ fuel := by
        have hlt : m / limbBase < m := Nat.div_lt_self (Nat.pos_of_ne_zero h0) (by norm_num [limbBase])
        omega
      have := ih (m / limbBase) hdiv
      simp only [natToLimbsAux, h0, if_false, limbsVal, this]
      exact Nat.mod_add_div m limbBase

theorem limbsVal_natToLimbs (m : Nat) : limbsVal (natToLimbs m) = m :=
  limbsVal_natToLimbsAux m m le_rfl

theorem mpiOfNat_mag (m : Nat) : (mpiOfNat m).mag = m :=
  limbsVal_natToLimbs m

theorem mpiOfNat_val (m : Nat) : (mpiOfNat m).val = m := by
  simp [mpi.val, mpiOfNat, mpi.mag, limbsVal_natToLimbs]

theorem mpiOfInt_mag (z : Int) : (mpiOfInt z).mag = z.natAbs := by
  simp [mpiOfInt, mpi.mag, limbsVal_natToLimbs]

theorem mpiOfInt_val (z : Int) : (mpiOfInt z).val = z := by
  unfold mpiOfInt mpi.val mpi.mag
  by_cases h : z < 0
  · simp only [h, if_true, limbsVal_natToLimbs]
    omega
  · simp only [h, if_false, limbsVal_natToLimbs]
    omega

/-- Bit length of a natural number, with recursion fuel (any bound on
the number): number of binary digits, `0` for zero. -/
def natBitsAux : Nat → Nat → Nat
  | 0, _ => 0
  | fuel + 1, m => if m = 0 then 0 else natBitsAux fuel (m / 2) + 1

/-- Bit length: the 1-based index of the most significant set bit,
`0` for the zero value. -/
def natBits (m : Nat) : Nat := natBitsAux m m

theorem natBitsAux_le_iff (fuel : Nat) :
    ∀ m k : Nat, m ≤ fuel → (natBitsAux fuel m ≤ k ↔ m < 2 ^ k) := by
  induction fuel with
  | zero =>
    intro m k hm
    interval_cases m
    simp only [natBitsAux]
    constructor
    · intro _; positivity
    · intro _; exact Nat.zero_le k
  | succ fuel ih =>
    intro m k hm
    by_cases h0 : m = 0
    · subst h0
      simp only [natBitsAux, if_true]
      constructor
      · intro _; positivity
      · intro _; exact Nat.zero_le k
    · simp only [natBitsAux, h0, if_false]
      cases k with
      | zero =>
        simp only [pow_zero, Nat.lt_one_iff]
        omega
      | succ k =>
        have hdiv : m / 2 ≤ fuel := by
          have := Nat.div_lt_self (Nat.pos_of_ne_zero h0) Nat.one_lt_two
          omega
        rw [Nat.succ_le_succ_iff, ih (m / 2) k hdiv, pow_succ]
        rw [Nat.div_lt_iff_lt_mul (by norm_num)]

theorem natBits_le_iff (m k : Nat) : natBits m ≤ k ↔ m < 2 ^ k :=
  natBitsAux_le_iff m m k le_rfl

theorem lt_two_pow_natBits (m : Nat) : m < 2 ^ natBits m :=
  (natBits_le_iff m (natBits m)).mp le_rfl

/-- Modelled from the spec: `mpi_msb` (§4.2 `bit_length`, absent
implementation) returns the 1-based index of the most significant set
bit of the magnitude, `0` for the zero value. -/
def mpi_msb (X : mpi) : Nat := natBits X.mag

/-- Modelled from the spec: `mpi_size` (absent implementation); the header
comment at `mpi.h:119` states it returns the actual size in bits, so it
is the bit length `mpi_msb`. -/
def mpi_size (X : mpi) : Nat := mpi_msb X

/-- Modelled from the spec: `mpi_grow` (§4.1, absent implementation).
Ensures capacity at least `nblimbs`, preserving the limbs and
zero-filling the new ones; no-op when already large enough; returns the
allocation-failure code `1` when `nblimbs` exceeds `MPI_MAX_LIMBS`. -/
def mpi_grow (X : mpi) (nblimbs : Nat) : Except Int mpi :=
  if MPI_MAX_LIMBS < nblimbs then .error 1
  else if nblimbs ≤ X.p.length then .ok X
  else .ok ⟨X.s, X.p ++ List.replicate (nblimbs - X.p.length) 0⟩

/-- Modelled from the spec: `mpi_sub_abs` (§4.3, absent implementation).
`X ← |A| − |B|`; fails with the negative-value error when `|A| < |B|`. -/
def mpi_sub_abs (A B : mpi) : Except Int mpi :=
  if A.mag < B.mag then .error ERR_MPI_NEGATIVE_VALUE
  else .ok (mpiOfNat (A.mag - B.mag))

/-- Modelled from the spec: `mpi_div_mpi` (§4.3, absent implementation).
Truncating long division `A = Q*B + R` (quotient toward zero, remainder
sign following the dividend); division by zero fails; either output may
be omitted by the caller (`wantQ` / `wantR` model the NULL arguments). -/
def mpi_div_mpi (wantQ wantR : Bool) (A B : mpi) : Except Int (Option mpi × Option mpi) :=
  if B.val = 0 then .error ERR_MPI_DIVISION_BY_ZERO
  else .ok
    ((if wantQ then some (mpiOfInt (A.val.tdiv B.val)) else none),
     (if wantR then some (mpiOfInt (A.val.tmod B.val)) else none))

/-- Modelled from the spec: `mpi_mod_mpi` (§4.3, absent implementation).
Mathematical (floor-style) modulo, non-negative for positive modulus;
zero modulus fails with division-by-zero, negative modulus with the
negative-value error. -/
def mpi_mod_mpi (A B : mpi) : Except Int mpi :=
  if B.val = 0 then .error ERR_MPI_DIVISION_BY_ZERO
  else if B.val < 0 then .error ERR_MPI_NEGATIVE_VALUE
  else .ok (mpiOfInt (A.val % B.val))

/-- Modelled from the spec: `mpi_exp_mod` (§4.4, absent implementation).
`X = A^E mod N`, canonical representative in `[0, N)`; the exponent is
read from `E`'s limbs (its magnitude); requires `N` positive and odd,
otherwise fails with the invalid-input error; the optional precomputed
`_RR` constant only amortizes setup cost and never changes the result. -/
def mpi_exp_mod (A E N : mpi) (_RR : Option mpi) : Except Int mpi :=
  if 0 < N.val ∧ N.val % 2 = 1 then .ok (mpiOfInt ((A.val ^ E.mag) % N.val))
  else .error ERR_MPI_BAD_INPUT_DATA

/-- Value of a big-endian byte sequence (most significant byte first). -/
def beVal : List Nat → Nat
  | [] => 0
  | b :: rest => b * 256 ^ rest.length + beVal rest

/-- Write a natural number as exactly `len` big-endian bytes
(the value is taken modulo `256^len`). -/
def natToBytesBE : Nat → Nat → List Nat
  | 0, _ => []
  | len + 1, m => natToBytesBE len (m / 256) ++ [m % 256]

/-- Number of limbs needed to hold `buflen` bytes (4 bytes per 32-bit limb). -/
def charsToLimbs (buflen : Nat) : Nat := (buflen + 3) / 4

/-- Modelled from the spec: `mpi_import` (§4.1, absent implementation).
Interprets `buf` as a big-endian unsigned magnitude; the result is
always non-negative and an empty buffer yields zero; returns the
allocation-failure code `1` when the needed limb count exceeds
`MPI_MAX_LIMBS`. -/
def mpi_import (buf : List Nat) : Except Int mpi :=
  if MPI_MAX_LIMBS < charsToLimbs buf.length then .error 1
  else .ok (mpiOfNat (beVal buf))

/-- Exact byte length required to serialize `X`'s magnitude. -/
def requiredLen (X : mpi) : Nat := (mpi_msb X + 7) / 8

/-- Modelled from the spec: `mpi_export` (§4.1, absent implementation).
Serializes the magnitude big-endian into a buffer of `buflen` bytes
(zero-padded at the front).  Called with `buflen = 0` it reports the
exact required length without writing; an insufficient `buflen` fails
with the buffer-too-small error.  Returns the written bytes and the
reported length. -/
def mpi_export (X : mpi) (buflen : Nat) : Except Int (List Nat × Nat) :=
  if buflen = 0 then .ok ([], requiredLen X)
  else if buflen < requiredLen X then .error ERR_MPI_BUFFER_TOO_SMALL
  else .ok (natToBytesBE buflen X.mag, buflen)

theorem limbsVal_replicate_zero (k : Nat) : limbsVal (List.replicate k 0) = 0 := by
  induction k with
  | zero => simp [limbsVal]
  | succ k ih => simp [List.replicate, limbsVal, ih]

theorem limbsVal_append_replicate_zero (p : List Nat) (k : Nat) :
    limbsVal (p ++ List.replicate k 0) = limbsVal p := by
  induction p with
  | nil => simp [limbsVal, limbsVal_replicate_zero]
  | cons x xs ih => simp [limbsVal, ih]

theorem natAbs_tmod (a b : Int) : (a.tmod b).natAbs = a.natAbs % b.natAbs := by
  cases a with
  | ofNat m =>
    cases b with
    | ofNat n => rfl
    | negSucc n => rfl
  | negSucc m =>
    cases b with
    | ofNat n =>
      show (-Int.ofNat (Nat.succ m % n)).natAbs = Nat.succ m % n
      rw [Int.natAbs_neg]
      rfl
    | negSucc n =>
      show (-Int.ofNat (Nat.succ m % Nat.succ n)).natAbs = Nat.succ m % Nat.succ n
      rw [Int.natAbs_neg]
      rfl

theorem tmod_nonpos (a b : Int) (h : a ≤ 0) : a.tmod b ≤ 0 := by
  cases a with
  | ofNat m =>
    have hm : m = 0 := by
      by_contra hm
      have hpos : (0 : Int) < Int.ofNat m := Int.ofNat_pos.mpr (Nat.pos_of_ne_zero hm)
      omega
    subst hm
    simp
  | negSucc m =>
    cases b with
    | ofNat n =>
      show -Int.ofNat (Nat.succ m % n) ≤ 0
      have hnn : (0 : Int) ≤ Int.ofNat (Nat.succ m % n) := Int.ofNat_nonneg _
      omega
    | negSucc n =>
      show -Int.ofNat (Nat.succ m % Nat.succ n) ≤ 0
      have hnn : (0 : Int) ≤ Int.ofNat (Nat.succ m % Nat.succ n) := Int.ofNat_nonneg _
      omega

theorem beVal_append_singleton (l : List Nat) (b : Nat) :
    beVal (l ++ [b]) = beVal l * 256 + b := by
  induction l with
  | nil => simp [beVal]
  | cons x xs ih =>
    have hlen : (xs ++ [b]).length = xs.length + 1 := by simp
    calc beVal (x :: (xs ++ [b]))
        = x * 256 ^ (xs ++ [b]).length + beVal (xs ++ [b]) := rfl
      _ = x * 256 ^ (xs.length + 1) + (beVal xs * 256 + b) := by rw [hlen, ih]
      _ = (x * 256 ^ xs.length + beVal xs) * 256 + b := by ring
      _ = beVal (x :: xs) * 256 + b := rfl

theorem beVal_natToBytesBE (len : Nat) :
    ∀ m : Nat, m < 256 ^ len → beVal (natToBytesBE len m) = m := by
  induction len with
  | zero =>
    intro m hm
    simp only [pow_zero, Nat.lt_one_iff] at hm
    simp [natToBytesBE, beVal, hm]
  | succ len ih =>
    intro m hm
    have hdiv : m / 256 < 256 ^ len := by
      rw [Nat.div_lt_iff_lt_mul (by norm_num)]
      calc m < 256 ^ (len + 1) := hm
        _ = 256 ^ len * 256 := by ring
    simp only [natToBytesBE, beVal_append_singleton, ih (m / 256) hdiv]
    omega

theorem natToBytesBE_length (len m : Nat) : (natToBytesBE len m).length = len := by
  induction len generalizing m with
  | zero => simp [natToBytesBE]
  | succ len ih => simp [natToBytesBE, ih]

theorem natToBytesBE_bytes_lt (len : Nat) :
    ∀ m : Nat, ∀ b ∈ natToBytesBE len m, b < 256 := by
  induction len with
  | zero => intro m b hb; simp [natToBytesBE] at hb
  | succ len ih =>
    intro m b hb
    simp only [natToBytesBE, List.mem_append, List.mem_singleton] at hb
    rcases hb with hb | hb
    · exact ih (m / 256) b hb
    · subst hb
      exact Nat.mod_lt _ (by norm_num)

theorem mag_lt_pow_requiredLen (X : mpi) : X.mag < 256 ^ requiredLen X := by
  have h1 : X.mag < 2 ^ mpi_msb X := lt_two_pow_natBits X.mag
  have h2 : mpi_msb X ≤ 8 * requiredLen X := by
    unfold requiredLen
    omega
  calc X.mag < 2 ^ mpi_msb X := h1
    _ ≤ 2 ^ (8 * requiredLen X) := Nat.pow_le_pow_right (by norm_num) h2
    _ = 256 ^ requiredLen X := by rw [pow_mul]; norm_num

theorem requiredLen_min (X : mpi) (k : Nat) (h : X.mag < 256 ^ k) :
    requiredLen X ≤ k := by
  have h1 : mpi_msb X ≤ 8 * k := by
    rw [mpi_msb, natBits_le_iff]
    calc X.mag < 256 ^ k := h
      _ = 2 ^ (8 * k) := by rw [pow_mul]; norm_num
  unfold requiredLen
  omega

/-- Claim C10: the three outcome classes are mutually disjoint integers:
success is `0`, allocation failure is the positive value `1` (not any
`ERR_MPI_*` constant), and the seven `ERR_MPI_*` codes are
pairwise-distinct negative values between `-0x000E` and `-0x0002`, so the
return value alone distinguishes the outcomes; `mpi_grow` over the limb
ceiling indeed returns `1`. -/
theorem errCodes_disjoint :
    (0 : Int) < 1 ∧
    (∀ c ∈ errCodes, c < 0) ∧
    errCodes.Nodup ∧
    (1 : Int) ∉ errCodes ∧
    (0 : Int) ∉ errCodes ∧
    (∀ c ∈ errCodes, -0x000E ≤ c ∧ c ≤ -0x0002) ∧
    mpi_grow (mpiOfNat 0) (MPI_MAX_LIMBS + 1) = .error 1 :=
  ⟨by norm_num, by decide, by decide, by decide, by decide, by decide, rfl⟩

/-- Claim C5: `mpi_sub_abs A B` fails with the negative-value error exactly
when `|A| < |B|`; when `|A| ≥ |B|` it succeeds with the non-negative
magnitude `|A| - |B|`. -/
theorem mpi_sub_abs_spec (A B : mpi) :
    (mpi_sub_abs A B = .error ERR_MPI_NEGATIVE_VALUE ↔ A.mag < B.mag) ∧
    (B.mag ≤ A.mag →
      ∃ X, mpi_sub_abs A B = .ok X ∧ X.mag = A.mag - B.mag ∧ 0 ≤ X.val ∧
        X.val = (A.mag : Int) - (B.mag : Int)) := by
  constructor
  · constructor
    · intro h
      by_contra hlt
      unfold mpi_sub_abs at h
      rw [if_neg hlt] at h
      exact Except.noConfusion h
    · intro hlt
      unfold mpi_sub_abs
      rw [if_pos hlt]
  · intro hle
    refine ⟨mpiOfNat (A.mag - B.mag), ?_, mpiOfNat_mag _, ?_, ?_⟩
    · unfold mpi_sub_abs
      rw [if_neg (by omega)]
    · rw [mpiOfNat_val]
      positivity
    · rw [mpiOfNat_val]
      omega

/-- Witness for C5 at `A = 7`, `B = 5`. -/
theorem mpi_sub_abs_spec_witness :
    (mpiOfNat 5).mag ≤ (mpiOfNat 7).mag ∧
    (∃ X, mpi_sub_abs (mpiOfNat 7) (mpiOfNat 5) = .ok X ∧
      X.mag = (mpiOfNat 7).mag - (mpiOfNat 5).mag ∧ 0 ≤ X.val ∧
      X.val = ((mpiOfNat 7).mag : Int) - ((mpiOfNat 5).mag : Int)) :=
  ⟨by decide, (mpi_sub_abs_spec (mpiOfNat 7) (mpiOfNat 5)).2 (by decide)⟩

/-- Claim C3: `mpi_mod_mpi` is floor-style modulo: for positive `B` it
succeeds with `0 ≤ R < B`; a zero `B` fails with division-by-zero and a
negative `B` with the negative-value error. -/
theorem mpi_mod_mpi_spec (A B : mpi) :
    (0 < B.val →
      ∃ R, mpi_mod_mpi A B = .ok R ∧ R.val = A.val % B.val ∧
        0 ≤ R.val ∧ R.val < B.val) ∧
    (B.val = 0 → mpi_mod_mpi A B = .error ERR_MPI_DIVISION_BY_ZERO) ∧
    (B.val < 0 → mpi_mod_mpi A B = .error ERR_MPI_NEGATIVE_VALUE) := by
  refine ⟨?_, ?_, ?_⟩
  · intro hB
    refine ⟨mpiOfInt (A.val % B.val), ?_, mpiOfInt_val _, ?_, ?_⟩
    · unfold mpi_mod_mpi
      rw [if_neg (by omega), if_neg (by omega)]
    · rw [mpiOfInt_val]
      exact Int.emod_nonneg A.val (by omega)
    · rw [mpiOfInt_val]
      exact Int.emod_lt_of_pos A.val hB
  · intro hB
    unfold mpi_mod_mpi
    rw [if_pos hB]
  · intro hB
    unfold mpi_mod_mpi
    rw [if_neg (by omega), if_pos hB]

/-- Witness for C3 at `A = -7`, `B = 2` (the spec's scenario: the
floor-style result is `1`). -/
theorem mpi_mod_mpi_spec_witness :
    0 < (mpiOfNat 2).val ∧
    (∃ R, mpi_mod_mpi (mpiOfInt (-7)) (mpiOfNat 2) = .ok R ∧
      R.val = (mpiOfInt (-7)).val % (mpiOfNat 2).val ∧
      0 ≤ R.val ∧ R.val < (mpiOfNat 2).val) :=
  ⟨by decide, (mpi_mod_mpi_spec (mpiOfInt (-7)) (mpiOfNat 2)).1 (by decide)⟩

/-- Claim C4: `mpi_exp_mod` fails with the invalid-input error exactly when
the modulus precondition is violated, i.e. when `N` is not both positive
and odd. -/
theorem mpi_exp_mod_bad_modulus (A E N : mpi) (rr : Option mpi) :
    mpi_exp_mod A E N rr = .error ERR_MPI_BAD_INPUT_DATA ↔
      ¬(0 < N.val ∧ N.val % 2 = 1) := by
  unfold mpi_exp_mod
  by_cases h : 0 < N.val ∧ N.val % 2 = 1
  · rw [if_pos h]
    constructor
    · intro hcontra
      exact Except.noConfusion hcontra
    · intro hn
      exact absurd h hn
  · rw [if_neg h]
    exact iff_of_true rfl h

/-- Witness for C4 at the even modulus `N = 4`. -/
theorem mpi_exp_mod_bad_modulus_witness :
    mpi_exp_mod (mpiOfNat 4) (mpiOfNat 13) (mpiOfNat 4) none =
      .error ERR_MPI_BAD_INPUT_DATA :=
  (mpi_exp_mod_bad_modulus (mpiOfNat 4) (mpiOfNat 13) (mpiOfNat 4) none).mpr
    (by decide)

/-- Claim C2: for nonzero `B`, `mpi_div_mpi` succeeds with `Q*B + R = A`,
`|R| < |B|`, the quotient truncated toward zero and the remainder's sign
following the dividend; `A = -7, B = 2` gives `Q = -3, R = -1`; omitting
either output (the NULL arguments, modelled by `wantQ`/`wantR`) does not
change the other. -/
theorem mpi_div_mpi_spec (A B : mpi) (hB : B.val ≠ 0) :
    ∃ Q R,
      mpi_div_mpi true true A B = .ok (some Q, some R) ∧
      Q.val * B.val + R.val = A.val ∧
      R.val.natAbs < B.val.natAbs ∧
      (0 ≤ A.val → 0 ≤ R.val) ∧
      (A.val ≤ 0 → R.val ≤ 0) ∧
      Q.val = A.val.tdiv B.val ∧
      mpi_div_mpi true false A B = .ok (some Q, none) ∧
      mpi_div_mpi false true A B = .ok (none, some R) ∧
      mpi_div_mpi true true (mpiOfInt (-7)) (mpiOfInt 2) =
        .ok (some (mpiOfInt (-3)), some (mpiOfInt (-1))) := by
  refine ⟨mpiOfInt (A.val.tdiv B.val), mpiOfInt (A.val.tmod B.val),
    ?_, ?_, ?_, ?_, ?_, mpiOfInt_val _, ?_, ?_, rfl⟩
  · unfold mpi_div_mpi
    rw [if_neg hB]
    rfl
  · rw [mpiOfInt_val, mpiOfInt_val, mul_comm]
    exact Int.tdiv_add_tmod A.val B.val
  · rw [mpiOfInt_val, natAbs_tmod]
    exact Nat.mod_lt _ (Int.natAbs_pos.mpr hB)
  · intro hA
    rw [mpiOfInt_val]
    exact Int.tmod_nonneg B.val hA
  · intro hA
    rw [mpiOfInt_val]
    exact tmod_nonpos A.val B.val hA
  · unfold mpi_div_mpi
    rw [if_neg hB]
    rfl
  · unfold mpi_div_mpi
    rw [if_neg hB]
    rfl

/-- Witness for C2 at `A = -7`, `B = 2`. -/
theorem mpi_div_mpi_spec_witness :
    (mpiOfInt 2).val ≠ 0 ∧
    (∃ Q R,
      mpi_div_mpi true true (mpiOfInt (-7)) (mpiOfInt 2) = .ok (some Q, some R) ∧
      Q.val * (mpiOfInt 2).val + R.val = (mpiOfInt (-7)).val ∧
      R.val.natAbs < (mpiOfInt 2).val.natAbs ∧
      (0 ≤ (mpiOfInt (-7)).val → 0 ≤ R.val) ∧
      ((mpiOfInt (-7)).val ≤ 0 → R.val ≤ 0) ∧
      Q.val = (mpiOfInt (-7)).val.tdiv (mpiOfInt 2).val ∧
      mpi_div_mpi true false (mpiOfInt (-7)) (mpiOfInt 2) = .ok (some Q, none) ∧
      mpi_div_mpi false true (mpiOfInt (-7)) (mpiOfInt 2) = .ok (none, some R) ∧
      mpi_div_mpi true true (mpiOfInt (-7)) (mpiOfInt 2) =
        .ok (some (mpiOfInt (-3)), some (mpiOfInt (-1)))) :=
  ⟨by decide, mpi_div_mpi_spec (mpiOfInt (-7)) (mpiOfInt 2) (by decide)⟩

/-- Claim C1: for a positive odd modulus `N`, `mpi_exp_mod` succeeds with
the canonical representative of `A^E mod N` in `[0, N)`; the `4^13 mod
497 = 445` fixture holds, and supplying or omitting the precomputed
`_RR` constant does not change the result. -/
theorem mpi_exp_mod_spec (A N : mpi) (e : Nat) (rr : Option mpi)
    (hN : 0 < N.val) (hodd : N.val % 2 = 1) :
    ∃ X, mpi_exp_mod A (mpiOfNat e) N rr = .ok X ∧
      X.val = (A.val ^ e) % N.val ∧ 0 ≤ X.val ∧ X.val < N.val ∧
      (∀ rr', mpi_exp_mod A (mpiOfNat e) N rr' =
        mpi_exp_mod A (mpiOfNat e) N rr) ∧
      (∃ Y, mpi_exp_mod (mpiOfNat 4) (mpiOfNat 13) (mpiOfNat 497) none =
        .ok Y ∧ Y.val = 445) := by
  refine ⟨mpiOfInt ((A.val ^ e) % N.val), ?_, mpiOfInt_val _, ?_, ?_, ?_, ?_⟩
  · unfold mpi_exp_mod
    rw [if_pos ⟨hN, hodd⟩, mpiOfNat_mag]
  · rw [mpiOfInt_val]
    exact Int.emod_nonneg _ (by omega)
  · rw [mpiOfInt_val]
    exact Int.emod_lt_of_pos _ hN
  · intro rr'
    rfl
  · exact ⟨mpiOfNat 445, rfl, by decide⟩

/-- Witness for C1 at the fixture `A = 4`, `E = 13`, `N = 497`. -/
theorem mpi_exp_mod_spec_witness :
    (0 < (mpiOfNat 497).val ∧ (mpiOfNat 497).val % 2 = 1) ∧
    (∃ X, mpi_exp_mod (mpiOfNat 4) (mpiOfNat 13) (mpiOfNat 497) none = .ok X ∧
      X.val = ((mpiOfNat 4).val ^ 13) % (mpiOfNat 497).val ∧
      0 ≤ X.val ∧ X.val < (mpiOfNat 497).val ∧
      (∀ rr', mpi_exp_mod (mpiOfNat 4) (mpiOfNat 13) (mpiOfNat 497) rr' =
        mpi_exp_mod (mpiOfNat 4) (mpiOfNat 13) (mpiOfNat 497) none) ∧
      (∃ Y, mpi_exp_mod (mpiOfNat 4) (mpiOfNat 13) (mpiOfNat 497) none =
        .ok Y ∧ Y.val = 445)) :=
  ⟨⟨by decide, by decide⟩,
   mpi_exp_mod_spec (mpiOfNat 4) (mpiOfNat 497) 13 none (by decide) (by decide)⟩

theorem getD_replicate_zero (k : Nat) :
    ∀ j : Nat, (List.replicate k (0 : Nat)).getD j 0 = 0 := by
  induction k with
  | zero => intro j; simp [List.getD]
  | succ k ih =>
    intro j
    cases j with
    | zero => rfl
    | succ j => exact ih j

theorem getD_append_replicate_zero (p : List Nat) (k i : Nat)
    (h : p.length ≤ i) : (p ++ List.replicate k 0).getD i 0 = 0 := by
  rcases Nat.lt_or_ge i (p.length + k) with hi | hi
  · rw [List.getD_append_right _ _ _ _ h]
    exact getD_replicate_zero k (i - p.length)
  · apply List.getD_eq_default
    simp only [List.length_append, List.length_replicate]
    omega

/-- Claim C8: `mpi_grow` yields capacity at least `nblimbs`, never shrinks,
preserves the existing limbs and magnitude, zero-fills the added limbs,
is a no-op when the capacity already suffices, and fails with the
allocation code `1` whenever `nblimbs` exceeds `MPI_MAX_LIMBS`. -/
theorem mpi_grow_spec (X : mpi) (nblimbs : Nat) :
    (MPI_MAX_LIMBS < nblimbs → mpi_grow X nblimbs = .error 1) ∧
    (nblimbs ≤ MPI_MAX_LIMBS →
      ∃ Y, mpi_grow X nblimbs = .ok Y ∧
        nblimbs ≤ Y.p.length ∧
        X.p.length ≤ Y.p.length ∧
        Y.s = X.s ∧
        Y.mag = X.mag ∧
        Y.p.take X.p.length = X.p ∧
        (∀ i, X.p.length ≤ i → Y.p.getD i 0 = 0) ∧
        (nblimbs ≤ X.p.length → Y = X)) := by
  constructor
  · intro h
    unfold mpi_grow
    rw [if_pos h]
  · intro h
    unfold mpi_grow
    rw [if_neg (by omega)]
    by_cases hle : nblimbs ≤ X.p.length
    · rw [if_pos hle]
      refine ⟨X, rfl, by omega, le_rfl, rfl, rfl, List.take_length X.p, ?_, fun _ => rfl⟩
      intro i hi
      exact List.getD_eq_default X.p 0 hi
    · rw [if_neg hle]
      refine ⟨⟨X.s, X.p ++ List.replicate (nblimbs - X.p.length) 0⟩,
        rfl, ?_, ?_, rfl, ?_, ?_, ?_, ?_⟩
      · simp only [List.length_append, List.length_replicate]
        omega
      · simp only [List.length_append, List.length_replicate]
        omega
      · show limbsVal (X.p ++ List.replicate (nblimbs - X.p.length) 0) = limbsVal X.p
        exact limbsVal_append_replicate_zero X.p _
      · exact List.take_left X.p _
      · intro i hi
        exact getD_append_replicate_zero X.p _ i hi
      · intro hcontra
        exact absurd hcontra hle

/-- Witness for C8: growing past the ceiling fails with `1`; growing a
one-limb value to five limbs keeps its magnitude. -/
theorem mpi_grow_spec_witness :
    (MPI_MAX_LIMBS < 10001 ∧ mpi_grow (mpiOfNat 7) 10001 = .error 1) ∧
    ((5 : Nat) ≤ MPI_MAX_LIMBS ∧
      ∃ Y, mpi_grow (mpiOfNat 7) 5 = .ok Y ∧
        5 ≤ Y.p.length ∧
        (mpiOfNat 7).p.length ≤ Y.p.length ∧
        Y.s = (mpiOfNat 7).s ∧
        Y.mag = (mpiOfNat 7).mag ∧
        Y.p.take (mpiOfNat 7).p.length = (mpiOfNat 7).p ∧
        (∀ i, (mpiOfNat 7).p.length ≤ i → Y.p.getD i 0 = 0) ∧
        (5 ≤ (mpiOfNat 7).p.length → Y = mpiOfNat 7)) :=
  ⟨⟨by decide, (mpi_grow_spec (mpiOfNat 7) 10001).1 (by decide)⟩,
   ⟨by decide, (mpi_grow_spec (mpiOfNat 7) 5).2 (by decide)⟩⟩

/-- Claim C9: `mpi_size` is a pure function of the bit length, under the
single convention stated by the header's comment (the actual size in
bits): it equals `mpi_msb`, which is `0` for zero and otherwise the
unique `k` with `2^(k-1) ≤ magnitude < 2^k`. -/
theorem mpi_size_spec (X : mpi) :
    mpi_size X = mpi_msb X ∧
    (X.mag = 0 → mpi_size X = 0) ∧
    (0 < X.mag → 2 ^ (mpi_size X - 1) ≤ X.mag ∧ X.mag < 2 ^ mpi_size X) := by
  refine ⟨rfl, ?_, ?_⟩
  · intro h
    unfold mpi_size mpi_msb
    rw [h]
    rfl
  · intro h
    have hub := lt_two_pow_natBits X.mag
    have h1 : 1 ≤ natBits X.mag := by
      by_contra h1
      have h0 : natBits X.mag ≤ 0 := by omega
      have := (natBits_le_iff X.mag 0).mp h0
      simp only [pow_zero] at this
      omega
    refine ⟨?_, hub⟩
    by_contra hlt
    have h2 : X.mag < 2 ^ (natBits X.mag - 1) := by
      unfold mpi_size mpi_msb at hlt
      omega
    have h3 := (natBits_le_iff X.mag (natBits X.mag - 1)).mpr h2
    omega

/-- Witness for C9 at `X = 6` (bit length 3). -/
theorem mpi_size_spec_witness :
    mpi_size (mpiOfNat 6) = mpi_msb (mpiOfNat 6) ∧
    ((mpiOfNat 6).mag = 0 → mpi_size (mpiOfNat 6) = 0) ∧
    (0 < (mpiOfNat 6).mag →
      2 ^ (mpi_size (mpiOfNat 6) - 1) ≤ (mpiOfNat 6).mag ∧
      (mpiOfNat 6).mag < 2 ^ mpi_size (mpiOfNat 6)) :=
  mpi_size_spec (mpiOfNat 6)

/-- Claim C7: `mpi_export` follows the two-call size-then-fill protocol:
with `buflen = 0` it reports the exact required byte length (the least
`k` with `magnitude < 256^k`) and writes nothing; with a positive but
insufficient `buflen` it fails with the buffer-too-small error; a
successful call writes the magnitude as big-endian unsigned bytes, with
the sign not encoded. -/
theorem mpi_export_spec (X : mpi) (buflen : Nat) :
    mpi_export X 0 = .ok ([], requiredLen X) ∧
    X.mag < 256 ^ requiredLen X ∧
    (∀ k, X.mag < 256 ^ k → requiredLen X ≤ k) ∧
    (0 < buflen → buflen < requiredLen X →
      mpi_export X buflen = .error ERR_MPI_BUFFER_TOO_SMALL) ∧
    (0 < buflen → requiredLen X ≤ buflen →
      ∃ bytes, mpi_export X buflen = .ok (bytes, buflen) ∧
        bytes.length = buflen ∧ (∀ b ∈ bytes, b < 256) ∧
        beVal bytes = X.mag) ∧
    (∀ s', mpi_export ⟨s', X.p⟩ buflen = mpi_export X buflen) := by
  refine ⟨?_, mag_lt_pow_requiredLen X, requiredLen_min X, ?_, ?_, ?_⟩
  · unfold mpi_export
    rw [if_pos rfl]
  · intro h1 h2
    unfold mpi_export
    rw [if_neg (by omega), if_pos h2]
  · intro h1 h2
    refine ⟨natToBytesBE buflen X.mag, ?_, natToBytesBE_length _ _,
      natToBytesBE_bytes_lt buflen X.mag, ?_⟩
    · unfold mpi_export
      rw [if_neg (by omega), if_neg (by omega)]
    · apply beVal_natToBytesBE
      calc X.mag < 256 ^ requiredLen X := mag_lt_pow_requiredLen X
        _ ≤ 256 ^ buflen := Nat.pow_le_pow_right (by norm_num) h2
  · intro s'
    rfl

/-- Witness for C7 at the spec's scenario value `256` (required length 2). -/
theorem mpi_export_spec_witness :
    ((0 : Nat) < 2 ∧ requiredLen (mpiOfNat 256) ≤ 2) ∧
    (∃ bytes, mpi_export (mpiOfNat 256) 2 = .ok (bytes, 2) ∧
      bytes.length = 2 ∧ (∀ b ∈ bytes, b < 256) ∧
      beVal bytes = (mpiOfNat 256).mag) ∧
    mpi_export (mpiOfNat 256) 0 = .ok ([], requiredLen (mpiOfNat 256)) :=
  ⟨⟨by decide, by decide⟩,
   (mpi_export_spec (mpiOfNat 256) 2).2.2.2.2.1 (by decide) (by decide),
   (mpi_export_spec (mpiOfNat 256) 2).1⟩

/-- Claim C6: for a value whose magnitude fits under the limb ceiling,
exporting and re-importing reproduces the identical magnitude (the sign
is dropped by design); `mpi_import` always yields a non-negative value,
and an empty buffer imports as zero. -/
theorem import_export_roundtrip (X : mpi)
    (hfit : X.mag < limbBase ^ MPI_MAX_LIMBS) :
    (∃ bytes L, mpi_export X (requiredLen X) = .ok (bytes, L) ∧
      ∃ Y, mpi_import bytes = .ok Y ∧ Y.mag = X.mag ∧ Y.s = 1 ∧ 0 ≤ Y.val) ∧
    (∀ buf Y, mpi_import buf = .ok Y → 0 ≤ Y.val ∧ Y.s = 1) ∧
    mpi_import [] = .ok (mpiOfNat 0) := by
  have hbits : natBits X.mag ≤ 32 * MPI_MAX_LIMBS := by
    rw [natBits_le_iff]
    calc X.mag < limbBase ^ MPI_MAX_LIMBS := hfit
      _ = 2 ^ (32 * MPI_MAX_LIMBS) := by
        rw [pow_mul]
        rfl
  have hreqle : requiredLen X ≤ 4 * MPI_MAX_LIMBS := by
    unfold requiredLen mpi_msb
    unfold MPI_MAX_LIMBS at hbits ⊢
    omega
  refine ⟨?_, ?_, ?_⟩
  · by_cases hreq : requiredLen X = 0
    · have hmag0 : X.mag = 0 := by
        have := mag_lt_pow_requiredLen X
        rw [hreq] at this
        simpa using this
      refine ⟨[], requiredLen X, ?_, mpiOfNat 0, ?_, ?_, rfl, ?_⟩
      · unfold mpi_export
        rw [hreq]
        rfl
      · unfold mpi_import
        rw [if_neg (by decide)]
        rfl
      · rw [mpiOfNat_mag, hmag0]
      · rw [mpiOfNat_val]
        simp
    · refine ⟨natToBytesBE (requiredLen X) X.mag, requiredLen X, ?_,
        mpiOfNat (beVal (natToBytesBE (requiredLen X) X.mag)), ?_, ?_, rfl, ?_⟩
      · unfold mpi_export
        rw [if_neg hreq, if_neg (by omega)]
      · have hcap : ¬ (MPI_MAX_LIMBS <
            charsToLimbs (natToBytesBE (requiredLen X) X.mag).length) := by
          rw [natToBytesBE_length]
          unfold charsToLimbs
          unfold MPI_MAX_LIMBS at hreqle ⊢
          omega
        unfold mpi_import
        rw [if_neg hcap]
      · rw [mpiOfNat_mag, beVal_natToBytesBE _ _ (mag_lt_pow_requiredLen X)]
      · rw [mpiOfNat_val]
        exact Int.natCast_nonneg _
  · intro buf Y h
    unfold mpi_import at h
    by_cases hcap : MPI_MAX_LIMBS < charsToLimbs buf.length
    · rw [if_pos hcap] at h
      exact Except.noConfusion h
    · rw [if_neg hcap] at h
      rw [Except.ok.injEq] at h
      subst h
      exact ⟨by rw [mpiOfNat_val]; exact Int.natCast_nonneg _, rfl⟩
  · unfold mpi_import
    rw [if_neg (by decide)]
    rfl

theorem small_mag_lt_limb_ceiling : (mpiOfNat 258).mag < limbBase ^ MPI_MAX_LIMBS := by
  rw [mpiOfNat_mag]
  calc (258 : Nat) < limbBase := by norm_num [limbBase]
    _ ≤ limbBase ^ MPI_MAX_LIMBS :=
        Nat.le_self_pow (by norm_num [MPI_MAX_LIMBS]) limbBase

/-- Witness for C6 at `X = 258`. -/
theorem import_export_roundtrip_witness :
    (mpiOfNat 258).mag < limbBase ^ MPI_MAX_LIMBS ∧
    ((∃ bytes L, mpi_export (mpiOfNat 258) (requiredLen (mpiOfNat 258)) =
        .ok (bytes, L) ∧
      ∃ Y, mpi_import bytes = .ok Y ∧ Y.mag = (mpiOfNat 258).mag ∧
        Y.s = 1 ∧ 0 ≤ Y.val) ∧
    (∀ buf Y, mpi_import buf = .ok Y → 0 ≤ Y.val ∧ Y.s = 1) ∧
    mpi_import [] = .ok (mpiOfNat 0)) :=
  ⟨small_mag_lt_limb_ceiling,
   import_export_roundtrip (mpiOfNat 258) small_mag_lt_limb_ceiling⟩

end Libmpi
